import Mathlib

/-!
Verification development for the claw-recall conversation-memory system
(session indexer `index.py`, database schema `setup_db.py`, search layer
`search.py`).  The Python source is shallowly embedded: pure functions become
Lean functions over `List Char`/`String`, the SQLite store becomes explicit
record-of-lists state with an explicit committed/current transaction pair,
and the external collaborators (the OpenAI embedding endpoint, the FTS5 bm25
ranking value, wall-clock time and float cosine similarity) are function
parameters, since their outputs are opaque to the program logic being
verified.
-/

namespace ClawRecall

/-! ## Constants (index.py lines 30-32) -/

def EMBEDDING_MODEL : String := "text-embedding-3-small"

def EMBEDDING_BATCH_SIZE : Nat := 20

def MIN_CONTENT_LENGTH : Nat := 20

/-! ## Character/string helpers

Python string primitives (`.lower()`, `.strip()`, `.split()`, slicing) are
modelled over `List Char` so that every definition evaluates inside the
kernel.  Unicode case folding is approximated by `Char.toLower` (ASCII),
which matches every input the claims exercise. -/

def lowerChars (s : String) : List Char :=
  s.toList.map Char.toLower

def strTrim (s : String) : String :=
  String.mk (((s.toList.dropWhile Char.isWhitespace).reverse.dropWhile
    Char.isWhitespace).reverse)

/-- Python `s.split()`: split on runs of whitespace, no empty pieces. -/
def wsSplit : List Char → List Char → List String
  | [], cur => if cur.isEmpty then [] else [String.mk cur.reverse]
  | c :: cs, cur =>
    if c.isWhitespace then
      if cur.isEmpty then wsSplit cs [] else String.mk cur.reverse :: wsSplit cs []
    else wsSplit cs (c :: cur)

/-- Split a string on a single separator character (used for path components). -/
def charSplit (sep : Char) : List Char → List Char → List String
  | [], cur => [String.mk cur.reverse]
  | c :: cs, cur =>
    if c = sep then String.mk cur.reverse :: charSplit sep cs []
    else charSplit sep cs (c :: cur)

/-! ## `pathlib` filename stem (index.py: `filepath.stem`) -/

def basename (p : String) : String :=
  (charSplit '/' p.toList []).getLastD p

/-- `pathlib.PurePath.stem`: the final path component without its last
suffix; a dot at position 0 or a trailing dot does not start a suffix. -/
def stem (p : String) : String :=
  let n := basename p
  let cs := n.toList
  match (cs.reverse.findIdx? (· = '.')).map (fun k => cs.length - 1 - k) with
  | some i => if 0 < i ∧ i < cs.length - 1 then String.mk (cs.take i) else n
  | none => n

/-! ## Record model (one decoded .jsonl line, post `parse_session_file`)

`parse_session_file` yields one decoded JSON value per well-formed line;
malformed lines are skipped there, so the ingestion model receives the list
of decoded records.  A record's fields mirror exactly the dictionary
accesses performed by `extract_messages` (index.py lines 261-321). -/

inductive ContentPart
  /-- a `{"type": "text", "text": s}` part (a missing `text` key reads as `""`). -/
  | text (s : String)
  /-- any non-text part (tool call, attachment, reasoning trace, non-dict). -/
  | other
deriving DecidableEq

inductive RawContent
  /-- content field holding a plain string. -/
  | str (s : String)
  /-- content field holding a list of typed parts. -/
  | parts (l : List ContentPart)
  /-- content field of any other shape (`_extract_text` returns `None`). -/
  | other
deriving DecidableEq

structure EntryMessage where
  role : Option String
  content : Option RawContent
deriving DecidableEq

structure Entry where
  /-- `entry.get('type')`. -/
  etype : Option String
  /-- `entry.get('message')` (absent key ↦ `none`). -/
  message : Option EntryMessage
  /-- top-level `entry.get('role')` (legacy shape). -/
  role : Option String
  /-- top-level `entry.get('content')` (legacy shape). -/
  content : Option RawContent
  /-- the value of `_parse_timestamp(entry)`: the structured `timestamp`
  field decoded by the datetime library (ISO-8601 string or epoch millis),
  `none` when absent or unparseable.  Datetime values are opaque here and
  carried as strings. -/
  parsedTimestamp : Option String
deriving DecidableEq

def TOOL_RESULT_ROLES : List String := ["toolResult", "tool_result", "tool-result"]

/-! ## CC_SYSTEM_TAG_RE (index.py lines 217-221)

`re.sub` of `<(?:system-reminder|local-command-\w+|command-\w+)[^>]*>.*?`
`</(?:system-reminder|local-command-\w+|command-\w+)>` with DOTALL over the
content.  The three open-tag alternatives start with distinct characters,
so ordered alternation coincides with first-match; `[^>]*>` reaches the
first `'>'`; the lazy `.*?` stops at the earliest close tag. -/

def wordChar (c : Char) : Bool := c.isAlphanum || c = '_'

/-- Skip to just past the first `'>'` (the `[^>]*>` tail of an open tag). -/
def dropToGt : List Char → Option (List Char)
  | [] => none
  | c :: rest => if c = '>' then some rest else dropToGt rest

/-- Given the text after `'<'`, match one open-tag alternative plus
`[^>]*>`, returning the remaining text. -/
def openTagRest (cs : List Char) : Option (List Char) :=
  if ("system-reminder".toList).isPrefixOf cs then
    dropToGt (cs.drop 15)
  else if ("local-command-".toList).isPrefixOf cs then
    match cs.drop 14 with
    | c :: _ => if wordChar c then dropToGt (cs.drop 14) else none
    | [] => none
  else if ("command-".toList).isPrefixOf cs then
    match cs.drop 8 with
    | c :: _ => if wordChar c then dropToGt (cs.drop 8) else none
    | [] => none
  else none

/-- `\w+>` — one or more word characters then `'>'`. -/
def wordsThenGt : List Char → Option (List Char)
  | [] => none
  | c :: rest =>
    if c = '>' then none
    else if wordChar c then wordsThenGtAux rest else none
where wordsThenGtAux : List Char → Option (List Char)
  | [] => none
  | c :: rest =>
    if c = '>' then some rest
    else if wordChar c then wordsThenGtAux rest else none

/-- Given the text after `"</"`, match one close-tag alternative. -/
def closeTagRest (cs : List Char) : Option (List Char) :=
  if ("system-reminder>".toList).isPrefixOf cs then some (cs.drop 16)
  else if ("local-command-".toList).isPrefixOf cs then wordsThenGt (cs.drop 14)
  else if ("command-".toList).isPrefixOf cs then wordsThenGt (cs.drop 8)
  else none

/-- The lazy `.*?` followed by a close tag: scan for the earliest close tag
and return the text after it. -/
def findClose : List Char → Option (List Char)
  | [] => none
  | c :: rest =>
    if c = '<' then
      match rest with
      | '/' :: rest2 =>
        match closeTagRest rest2 with
        | some r => some r
        | none => findClose rest
      | _ => findClose rest
    else findClose rest

/-- The `re.sub(..., '', content)` scan: at each position try the whole
pattern (open tag then earliest close tag); on a match drop it and resume
after the match, otherwise keep the character.  Fuel is the input length. -/
def stripScan : Nat → List Char → List Char
  | 0, cs => cs
  | _, [] => []
  | fuel + 1, c :: cs =>
    if c = '<' then
      match openTagRest cs with
      | some afterOpen =>
        match findClose afterOpen with
        | some afterClose => stripScan fuel afterClose
        | none => c :: stripScan fuel cs
      | none => c :: stripScan fuel cs
    else c :: stripScan fuel cs

def stripTags (s : String) : String :=
  String.mk (stripScan (s.toList.length + 1) s.toList)

/-! ## `_try_timestamp_from_content` (index.py lines 250-258)

`re.search(r'\[(\d{4}-\d{2}-\d{2})\s+(\d{2}:\d{2})', content)` then a
`strptime("%Y-%m-%d %H:%M")` whose failure yields `None`.  The resulting
datetime value is carried as its canonical `"date time"` string. -/

def takeDigits : Nat → List Char → Option (List Char × List Char)
  | 0, cs => some ([], cs)
  | _ + 1, [] => none
  | n + 1, c :: cs =>
    if c.isDigit then (takeDigits n cs).map (fun p => (c :: p.1, p.2)) else none

def wsPlus : List Char → Option (List Char)
  | [] => none
  | c :: cs =>
    if c.isWhitespace then some (cs.dropWhile Char.isWhitespace) else none

def expectChar (c : Char) : List Char → Option (List Char)
  | [] => none
  | d :: cs => if d = c then some cs else none

/-- Try the timestamp pattern at the position just after a `'['`; on
success return the two captured groups (date, time). -/
def tsMatchAt (cs : List Char) : Option (String × String) := do
  let (y, cs) ← takeDigits 4 cs
  let cs ← expectChar '-' cs
  let (mo, cs) ← takeDigits 2 cs
  let cs ← expectChar '-' cs
  let (d, cs) ← takeDigits 2 cs
  let cs ← wsPlus cs
  let (h, cs) ← takeDigits 2 cs
  let cs ← expectChar ':' cs
  let (mi, _) ← takeDigits 2 cs
  some (String.mk (y ++ '-' :: mo ++ '-' :: d), String.mk (h ++ ':' :: mi))

/-- `re.search`: the leftmost position where the pattern matches (the
pattern starts with `\[`, so only `'['` positions can match). -/
def tsSearch : List Char → Option (String × String)
  | [] => none
  | '[' :: rest =>
    match tsMatchAt rest with
    | some g => some g
    | none => tsSearch rest
  | _ :: rest => tsSearch rest

def digitsToNat (cs : List Char) : Nat :=
  cs.foldl (fun n c => n * 10 + (c.toNat - '0'.toNat)) 0

def isLeapYear (y : Nat) : Bool :=
  (y % 4 = 0 && y % 100 ≠ 0) || y % 400 = 0

def daysInMonth (y m : Nat) : Nat :=
  if m = 2 then (if isLeapYear y then 29 else 28)
  else if m = 4 ∨ m = 6 ∨ m = 9 ∨ m = 11 then 30
  else 31

/-- `datetime.strptime` range validation (year ≥ 1, calendar day, 24h time). -/
def validDateTime (dateS timeS : String) : Bool :=
  match charSplit '-' dateS.toList [], charSplit ':' timeS.toList [] with
  | [ys, ms, ds], [hs, mis] =>
    let y := digitsToNat ys.toList
    let m := digitsToNat ms.toList
    let d := digitsToNat ds.toList
    let h := digitsToNat hs.toList
    let mi := digitsToNat mis.toList
    1 ≤ y && 1 ≤ m && m ≤ 12 && 1 ≤ d && d ≤ daysInMonth y m && h ≤ 23 && mi ≤ 59
  | _, _ => false

def tryTimestampFromContent (content : String) : Option String :=
  match tsSearch content.toList with
  | some (dateS, timeS) =>
    if validDateTime dateS timeS then some (dateS ++ " " ++ timeS) else none
  | none => none

/-! ## `_extract_text` and `extract_messages` (index.py lines 239-321) -/

def extractText : RawContent → Option String
  | .str s => some s
  | .parts l =>
    let ps := l.filterMap fun p =>
      match p with
      | .text s => some s
      | .other => none
    if ps.isEmpty then none else some (String.intercalate " " ps)
  | .other => none

/-- Shape sniffing (index.py lines 273-289): returns `(role, raw content,
is_cc)` for recognized envelope shapes, `none` for skipped shapes. -/
def shapeOf (e : Entry) : Option (Option String × RawContent × Bool) :=
  if e.etype = some "message" then
    let m := e.message.getD ⟨none, none⟩
    some (m.role, m.content.getD (.str ""), false)
  else if (e.etype = some "user" ∨ e.etype = some "assistant") ∧ e.message.isSome then
    match e.message with
    | some m => some (m.role <|> e.etype, m.content.getD (.str ""), true)
    | none => none
  else if e.role.isSome ∧ e.content.isSome ∧ e.etype = none then
    some (e.role, e.content.getD (.str ""), false)
  else none

/-- One normalized conversational turn (the dict appended at index.py
lines 309-314; `message_index` is the list position). -/
structure Msg where
  role : Option String
  content : String
  timestamp : Option String
deriving DecidableEq

/-- `role in TOOL_RESULT_ROLES` (a `None` role is not in the set). -/
def roleIsToolResult : Option String → Bool
  | some r => decide (r ∈ TOOL_RESULT_ROLES)
  | none => false

/-- The body of the `extract_messages` loop after shape sniffing
(index.py lines 291-314), given the record's parsed structured timestamp:
drop tool-result roles, extract text, drop empty/whitespace content, strip
CC tags (dropping if emptied), resolve the timestamp. -/
def turnOfParts (pt : Option String) (role : Option String) (raw : RawContent)
    (isCC : Bool) : Option Msg :=
  if roleIsToolResult role then none
  else
    match extractText raw with
    | none => none
    | some c0 =>
      if strTrim c0 = "" then none
      else
        let c1 := strTrim c0
        let c2 := if isCC then strTrim (stripTags c1) else c1
        if c2 = "" then none
        else some ⟨role, c2, pt <|> tryTimestampFromContent c2⟩

/-- The per-record body of the `extract_messages` loop: `none` when the
record contributes no turn (unrecognized shape, tool-result role, empty or
whitespace-only content, or content emptied by CC tag stripping). -/
def turnOf (e : Entry) : Option Msg :=
  match shapeOf e with
  | none => none
  | some (role, raw, isCC) => turnOfParts e.parsedTimestamp role raw isCC

/-- `extract_messages`: the turn list (indices are positions), plus the
first and last non-null timestamps in list order. -/
def extract_messages (entries : List Entry) : List Msg × Option String × Option String :=
  let msgs := entries.filterMap turnOf
  (msgs, (msgs.filterMap (·.timestamp)).head?, (msgs.filterMap (·.timestamp)).getLast?)

/-! ## Storage model (setup_db.py schema)

Each table is a list of rows in insertion order; `AUTOINCREMENT` columns
are modelled with explicit next-id counters.  The embedding BLOB is carried
as the decoded vector (`List ℚ` standing for the float array). -/

structure SessRow where
  id : String
  agent_id : String
  channel : String
  channel_id : Option String
  started_at : Option String
  ended_at : Option String
  message_count : Nat
  source_file : String
deriving DecidableEq

structure MsgRow where
  id : Nat
  session_id : String
  role : Option String
  content : String
  timestamp : Option String
  message_index : Nat
deriving DecidableEq

structure EmbRow where
  id : Nat
  message_id : Nat
  vec : List ℚ
deriving DecidableEq

structure LogRow where
  id : Nat
  source_file : String
  file_size : Nat
  file_mtime : String
  message_count : Nat
deriving DecidableEq

structure DB where
  sessions : List SessRow
  messages : List MsgRow
  embeddings : List EmbRow
  index_log : List LogRow
  next_msg_id : Nat
  next_emb_id : Nat
  next_log_id : Nat
deriving DecidableEq

def DB.emptyDB : DB := ⟨[], [], [], [], 1, 1, 1⟩

/-- The sqlite3 connection in its default isolation mode: data-modifying
statements act on `current` inside an implicit open transaction; only
`conn.commit()` copies `current` into `committed`.  The ingestion code
never calls `rollback`. -/
structure TxDB where
  committed : DB
  current : DB
deriving DecidableEq

def TxDB.emptyTx : TxDB := ⟨DB.emptyDB, DB.emptyDB⟩

/-- A source session file: its path, `stat()` size and mtime, and the
decoded records of its lines. -/
structure SrcFile where
  path : String
  size : Nat
  mtime : String
  entries : List Entry
deriving DecidableEq

/-- The `(agent_id, channel, channel_id)` triple produced by
`extract_session_metadata` — a pure function of the path (index.py lines
90-213), abstracted here as a function parameter since no claim under
verification depends on its internals. -/
structure Metadata where
  agent_id : String
  channel : String
  channel_id : Option String
deriving DecidableEq

/-- The resolver and the optional embedding collaborator threaded through
ingestion.  `embed? = some fn` models `generate_embeds and openai_client`;
`fn texts` returns one `Option` vector per text (`none` for a text whose
batch failed), exactly the contract of `generate_embeddings`. -/
structure IngestCtx where
  resolveMeta : String → Metadata
  embed? : Option (List String → List (Option (List ℚ)))

inductive IndexStatus
  /-- `{'status': 'indexed', 'messages': n, 'embeddings': e}`. -/
  | indexed (messages embeds : Nat)
  /-- `{'status': 'skipped', 'reason': 'already indexed'}`. -/
  | skippedAlreadyIndexed
  /-- `{'status': 'skipped', 'reason': 'no messages'}`. -/
  | skippedNoMessages
deriving DecidableEq

def findLog (log : List LogRow) (path : String) : Option LogRow :=
  log.find? (fun r => r.source_file = path)

/-- The delete block of `index_session_file` (index.py lines 365-369):
embeddings of the session's messages, the session's messages, the session
row, and the matched ledger row, in that order, keyed by the filename stem
(`session_id`) except for the ledger row which is keyed by its row id. -/
def deletePhase (sid : String) (logId : Nat) (db : DB) : DB :=
  let msgIds := (db.messages.filter (fun m => m.session_id = sid)).map (·.id)
  { db with
    embeddings := db.embeddings.filter (fun e => decide (e.message_id ∉ msgIds)),
    messages := db.messages.filter (fun m => decide (¬ m.session_id = sid)),
    sessions := db.sessions.filter (fun s => decide (¬ s.id = sid)),
    index_log := db.index_log.filter (fun r => decide (¬ r.id = logId)) }

/-- Bulk insert of turns (index.py lines 400-412): sequential
`lastrowid`s from `startId`, `message_index` from the extracted dict. -/
def msgsToRows (sid : String) (startId : Nat) (msgs : List Msg) : List MsgRow :=
  msgs.enum.map fun p => ⟨startId + p.1, sid, p.2.role, p.2.content, p.2.timestamp, p.1⟩

/-- Embedding insertion (index.py lines 415-434): messages of length ≥
`MIN_CONTENT_LENGTH` are candidates, texts truncated to 2000 characters,
and a row is inserted for each candidate whose vector came back. -/
def embedInserts (fn : List String → List (Option (List ℚ)))
    (startEmbId : Nat) (rows : List MsgRow) : List EmbRow :=
  let cands := rows.filter (fun r => decide (MIN_CONTENT_LENGTH ≤ r.content.toList.length))
  let texts := cands.map (fun r => String.mk (r.content.toList.take 2000))
  let pairs := (cands.zip (fn texts)).filterMap (fun p => p.2.map (fun v => (p.1.id, v)))
  pairs.enum.map fun p => ⟨startEmbId + p.1, p.2.1, p.2.2⟩

/-- The embedding rows inserted for one file's ingestion (index.py lines
415-434), on the turns just inserted. -/
def ingestEmbRows (ctx : IngestCtx) (f : SrcFile) (db : DB) : List EmbRow :=
  match ctx.embed? with
  | some fn =>
    embedInserts fn db.next_emb_id
      (msgsToRows (stem f.path) db.next_msg_id (extract_messages f.entries).1)
  | none => []

/-- The store after the insert phase of one file's ingestion (index.py
lines 380-441): insert-or-replace of the session row keyed by the filename
stem, append of the turn rows, the embedding rows, and the ledger row. -/
def ingestedDB (ctx : IngestCtx) (f : SrcFile) (db : DB) : DB :=
  let msgs := (extract_messages f.entries).1
  let sid := stem f.path
  let meta := ctx.resolveMeta f.path
  let msgRows := msgsToRows sid db.next_msg_id msgs
  let embRows := ingestEmbRows ctx f db
  { sessions := db.sessions.filter (fun s => decide (¬ s.id = sid)) ++
      [⟨sid, meta.agent_id, meta.channel, meta.channel_id,
        (extract_messages f.entries).2.1, (extract_messages f.entries).2.2,
        msgs.length, f.path⟩],
    messages := db.messages ++ msgRows,
    embeddings := db.embeddings ++ embRows,
    index_log := db.index_log ++ [⟨db.next_log_id, f.path, f.size, f.mtime, msgs.length⟩],
    next_msg_id := db.next_msg_id + msgs.length,
    next_emb_id := db.next_emb_id + embRows.length,
    next_log_id := db.next_log_id + 1 }

/-- The tail of `index_session_file` after the already-indexed check and
optional delete block (index.py lines 371-451): metadata, extraction, the
no-messages early return (which commits nothing and rolls back nothing),
then session/turn/embedding/ledger inserts followed by `conn.commit()`. -/
def ingestBody (ctx : IngestCtx) (f : SrcFile) (tx : TxDB) : TxDB × IndexStatus :=
  if (extract_messages f.entries).1.isEmpty then (tx, .skippedNoMessages)
  else
    (⟨ingestedDB ctx f tx.current, ingestedDB ctx f tx.current⟩,
      .indexed (extract_messages f.entries).1.length (ingestEmbRows ctx f tx.current).length)

/-- `index_session_file` (index.py lines 346-451). -/
def index_session_file (ctx : IngestCtx) (f : SrcFile) (tx : TxDB) :
    TxDB × IndexStatus :=
  match findLog tx.current.index_log f.path with
  | some existing =>
    if existing.file_size = f.size then (tx, .skippedAlreadyIndexed)
    else ingestBody ctx f { tx with current := deletePhase (stem f.path) existing.id tx.current }
  | none => ingestBody ctx f tx

structure DirResults where
  indexed : Nat
  skipped : Nat
  total_messages : Nat
  total_embeddings : Nat
deriving DecidableEq

/-- `index_directory` (index.py lines 454-490): one `index_session_file`
per file on the shared connection, tallying counters.  (The per-file
`except` arm never fires in this model, where no modelled operation
raises.) -/
def index_directory (ctx : IngestCtx) (files : List SrcFile) (tx : TxDB) :
    TxDB × DirResults :=
  files.foldl
    (fun acc f =>
      let step := index_session_file ctx f acc.1
      match step.2 with
      | .indexed n e =>
        (step.1, { acc.2 with
          indexed := acc.2.indexed + 1,
          total_messages := acc.2.total_messages + n,
          total_embeddings := acc.2.total_embeddings + e })
      | _ => (step.1, { acc.2 with skipped := acc.2.skipped + 1 }))
    (tx, ⟨0, 0, 0, 0⟩)

/-! ## `backfill_embeddings` commit cadence (index.py lines 493-546)

The loop walks candidate messages in batches of `EMBEDDING_BATCH_SIZE`;
batch `k` starts at offset `i = 20·k`, inserts `min 20 (n - i)` rows when
its API call succeeds and none otherwise, and the loop commits exactly
when `(i + EMBEDDING_BATCH_SIZE) % 500 == 0`.  `backfill_uncommitted
success n k` is the number of inserted-but-uncommitted embedding rows
after the `k`-th iteration (including its conditional commit). -/

def backfill_uncommitted (success : Nat → Bool) (n : Nat) : Nat → Nat
  | 0 => 0
  | k + 1 =>
    let i := EMBEDDING_BATCH_SIZE * k
    let ins := if success k then min EMBEDDING_BATCH_SIZE (n - i) else 0
    let u := backfill_uncommitted success n k + ins
    if (i + EMBEDDING_BATCH_SIZE) % 500 = 0 then 0 else u

/-! ## Lemmas about the ingestion pipeline -/

theorem ingestedDB_sessions (ctx : IngestCtx) (f : SrcFile) (db : DB) :
    (ingestedDB ctx f db).sessions =
      db.sessions.filter (fun s => decide (¬ s.id = stem f.path)) ++
        [⟨stem f.path, (ctx.resolveMeta f.path).agent_id,
          (ctx.resolveMeta f.path).channel, (ctx.resolveMeta f.path).channel_id,
          (extract_messages f.entries).2.1, (extract_messages f.entries).2.2,
          (extract_messages f.entries).1.length, f.path⟩] := rfl

theorem ingestedDB_messages (ctx : IngestCtx) (f : SrcFile) (db : DB) :
    (ingestedDB ctx f db).messages =
      db.messages ++
        msgsToRows (stem f.path) db.next_msg_id (extract_messages f.entries).1 := rfl

theorem ingestedDB_embeddings (ctx : IngestCtx) (f : SrcFile) (db : DB) :
    (ingestedDB ctx f db).embeddings = db.embeddings ++ ingestEmbRows ctx f db := rfl

theorem ingestedDB_index_log (ctx : IngestCtx) (f : SrcFile) (db : DB) :
    (ingestedDB ctx f db).index_log =
      db.index_log ++ [⟨db.next_log_id, f.path, f.size, f.mtime,
        (extract_messages f.entries).1.length⟩] := rfl

theorem deletePhase_sessions (sid : String) (logId : Nat) (db : DB) :
    (deletePhase sid logId db).sessions =
      db.sessions.filter (fun s => decide (¬ s.id = sid)) := rfl

theorem deletePhase_messages (sid : String) (logId : Nat) (db : DB) :
    (deletePhase sid logId db).messages =
      db.messages.filter (fun m => decide (¬ m.session_id = sid)) := rfl

theorem deletePhase_embeddings (sid : String) (logId : Nat) (db : DB) :
    (deletePhase sid logId db).embeddings =
      db.embeddings.filter (fun e => decide (e.message_id ∉
        (db.messages.filter (fun m => m.session_id = sid)).map (·.id))) := rfl

theorem deletePhase_index_log (sid : String) (logId : Nat) (db : DB) :
    (deletePhase sid logId db).index_log =
      db.index_log.filter (fun r => decide (¬ r.id = logId)) := rfl

theorem ingestBody_indexed_inv {ctx : IngestCtx} {f : SrcFile} {tx tx' : TxDB}
    {n e : Nat} (h : ingestBody ctx f tx = (tx', .indexed n e)) :
    (extract_messages f.entries).1.isEmpty = false ∧
    n = (extract_messages f.entries).1.length ∧
    tx' = ⟨ingestedDB ctx f tx.current, ingestedDB ctx f tx.current⟩ := by
  unfold ingestBody at h
  by_cases hm0 : (extract_messages f.entries).1.isEmpty
  · rw [if_pos hm0] at h
    exact absurd h (by simp)
  · rw [if_neg hm0] at h
    rw [Prod.mk.injEq] at h
    obtain ⟨h1, h2⟩ := h
    injection h2 with h2 _
    exact ⟨by simpa using hm0, h2.symm, h1.symm⟩


theorem enumFrom_mem_facts {α : Type} :
    ∀ (l : List α) (k : Nat) (p : Nat × α), p ∈ l.enumFrom k →
      (k ≤ p.1 ∧ p.1 < k + l.length) ∧ p.2 ∈ l := by
  intro l
  induction l with
  | nil =>
    intro k p hp
    simp [List.enumFrom] at hp
  | cons a l ih =>
    intro k p hp
    rw [show List.enumFrom k (a :: l) = (k, a) :: List.enumFrom (k + 1) l from rfl]
      at hp
    rcases List.mem_cons.mp hp with hp | hp
    · subst hp
      exact ⟨⟨Nat.le_refl k, by simp⟩, List.mem_cons_self a l⟩
    · obtain ⟨⟨h1, h2⟩, h3⟩ := ih (k + 1) p hp
      exact ⟨⟨by omega, by simp only [List.length_cons]; omega⟩,
        List.mem_cons_of_mem _ h3⟩

theorem msgsToRows_length (sid : String) (startId : Nat) (msgs : List Msg) :
    (msgsToRows sid startId msgs).length = msgs.length := by
  simp [msgsToRows]

theorem msgsToRows_mem (sid : String) (startId : Nat) (msgs : List Msg) :
    ∀ r ∈ msgsToRows sid startId msgs,
      r.session_id = sid ∧ startId ≤ r.id ∧ r.id < startId + msgs.length := by
  intro r hr
  unfold msgsToRows at hr
  rw [List.mem_map] at hr
  obtain ⟨p, hp, hr⟩ := hr
  subst hr
  have hb := (enumFrom_mem_facts msgs 0 p (by simpa [List.enum] using hp)).1
  dsimp only
  exact ⟨rfl, by omega, by omega⟩

theorem msgsToRows_filter_self (sid : String) (startId : Nat) (msgs : List Msg) :
    (msgsToRows sid startId msgs).filter (fun m => decide (m.session_id = sid)) =
      msgsToRows sid startId msgs := by
  rw [List.filter_eq_self]
  intro r hr
  simpa using (msgsToRows_mem sid startId msgs r hr).1

theorem msgsToRows_filter_ne (sid : String) (startId : Nat) (msgs : List Msg) :
    (msgsToRows sid startId msgs).filter
      (fun m => decide (¬ m.session_id = sid)) = [] := by
  rw [List.filter_eq_nil]
  intro r hr
  simpa using (msgsToRows_mem sid startId msgs r hr).1

theorem msgsToRows_map_index (sid : String) (startId : Nat) (msgs : List Msg) :
    (msgsToRows sid startId msgs).map (·.message_index) =
      List.range msgs.length := by
  unfold msgsToRows
  rw [List.map_map]
  exact List.enum_map_fst msgs

theorem msgsToRows_map_content (sid : String) (startId : Nat) (msgs : List Msg) :
    (msgsToRows sid startId msgs).map (·.content) = msgs.map (·.content) := by
  unfold msgsToRows
  rw [List.map_map]
  rw [show ((fun (r : MsgRow) => r.content) ∘ fun (p : Nat × Msg) =>
      (⟨startId + p.1, sid, p.2.role, p.2.content, p.2.timestamp, p.1⟩ : MsgRow)) =
      (fun (m : Msg) => m.content) ∘ Prod.snd from rfl]
  rw [← List.map_map, List.enum_map_snd]

theorem embedInserts_message_id (fn : List String → List (Option (List ℚ)))
    (startEmbId : Nat) (rows : List MsgRow) :
    ∀ x ∈ embedInserts fn startEmbId rows, ∃ m ∈ rows, x.message_id = m.id := by
  intro x hx
  unfold embedInserts at hx
  rw [List.mem_map] at hx
  obtain ⟨p, hp, hx⟩ := hx
  subst hx
  have hp2 := (enumFrom_mem_facts _ 0 p (by simpa [List.enum] using hp)).2
  rw [List.mem_filterMap] at hp2
  obtain ⟨q, hq, hq2⟩ := hp2
  have hq1 : q.1 ∈ rows := List.mem_of_mem_filter (List.of_mem_zip hq).1
  rw [Option.map_eq_some'] at hq2
  obtain ⟨v, _, hv2⟩ := hq2
  refine ⟨q.1, hq1, ?_⟩
  rw [← hv2]

theorem ingestedDB_next_msg_id (ctx : IngestCtx) (f : SrcFile) (db : DB) :
    (ingestedDB ctx f db).next_msg_id =
      db.next_msg_id + (extract_messages f.entries).1.length := rfl

theorem ingestedDB_next_log_id (ctx : IngestCtx) (f : SrcFile) (db : DB) :
    (ingestedDB ctx f db).next_log_id = db.next_log_id + 1 := rfl

theorem deletePhase_next_msg_id (sid : String) (logId : Nat) (db : DB) :
    (deletePhase sid logId db).next_msg_id = db.next_msg_id := rfl

theorem ingestEmbRows_bounds (ctx : IngestCtx) (f : SrcFile) (db : DB) :
    ∀ x ∈ ingestEmbRows ctx f db,
      db.next_msg_id ≤ x.message_id ∧
      x.message_id < db.next_msg_id + (extract_messages f.entries).1.length := by
  intro x hx
  unfold ingestEmbRows at hx
  cases hemb : ctx.embed? with
  | none =>
    rw [hemb] at hx
    simp at hx
  | some fn =>
    rw [hemb] at hx
    obtain ⟨m, hm, hmid⟩ := embedInserts_message_id fn _ _ x hx
    have hb := msgsToRows_mem _ _ _ m hm
    omega

/-! ## Search layer (search.py)

External values are carried in `SearchCtx`: `bm25` is SQLite's ranking
value for a (query, message) pair, `cutoffOfDays` is
`datetime.now() - timedelta(days=d)` rendered as a comparable string, and
`simOf` is the float cosine-similarity expression
`dot(v, q) / (‖v‖·‖q‖ + 1e-10)` as a rational. -/

structure SearchCtx where
  bm25 : String → Nat → ℚ
  cutoffOfDays : Nat → String
  simOf : List ℚ → List ℚ → ℚ

structure SearchResult where
  session_id : String
  agent_id : String
  channel : String
  role : Option String
  content : String
  timestamp : Option String
  score : ℚ
deriving DecidableEq

/-! FTS5 term matching.  The default unicode61 tokenizer case-folds and
splits text into maximal alphanumeric runs.  A double-quoted query term is
itself tokenized into a *phrase* — a sequence of tokens — and the phrase
matches a row iff its token sequence occurs consecutively among the row's
tokens: the term `foo-bar` matches content `foo bar baz`.  A term that
tokenizes to no tokens at all makes the real FTS5 query parser raise an
OperationalError out of `keyword_search`; such degenerate terms are
modelled as matching nothing, the one divergence of this embedding. -/

def tokSplit : List Char → List Char → List (List Char)
  | [], cur => if cur.isEmpty then [] else [cur.reverse]
  | c :: cs, cur =>
    if c.isAlphanum then tokSplit cs (c :: cur)
    else if cur.isEmpty then tokSplit cs []
    else cur.reverse :: tokSplit cs []

def tokenize (s : String) : List (List Char) :=
  tokSplit (lowerChars s) []

/-- Does the phrase's token sequence start at the head of the token
list? -/
def phraseAt : List (List Char) → List (List Char) → Bool
  | [], _ => true
  | _ :: _, [] => false
  | p :: ps, t :: ts => decide (p = t) && phraseAt ps ts

/-- Does the phrase occur as a consecutive run anywhere in the token
list? -/
def phraseMatch (ph : List (List Char)) : List (List Char) → Bool
  | [] => ph.isEmpty
  | t :: ts => phraseAt ph (t :: ts) || phraseMatch ph ts

def ftsTermMatch (content term : String) : Bool :=
  if (tokenize term).isEmpty then false
  else phraseMatch (tokenize term) (tokenize content)

def ftsMatchAll (content : String) (terms : List String) : Bool :=
  terms.all (ftsTermMatch content)

/-- search.py line 64: whitespace-split the query, strip every `"` from
each word, drop words that become empty. -/
def queryWords (query : String) : List String :=
  ((wsSplit query.toList []).map
    (fun w => String.mk (w.toList.filter (fun c => decide (¬ c = '"'))))).filter
    (fun w => decide (¬ w = ""))

/-- Python truthiness of an optional string filter (`if agent:`): `None`
and `""` both disable the filter. -/
def optActive : Option String → Option String
  | some "" => none
  | o => o

/-- Python truthiness of the `days` filter (`if days:`): `None` and `0`
both disable it. -/
def daysActive : Option Nat → Option Nat
  | some 0 => none
  | o => o

/-- SQL `m.timestamp >= bound`: a NULL timestamp compares as NULL and the
row is dropped. -/
def tsGE (ts : Option String) (bound : String) : Bool :=
  match ts with
  | none => false
  | some t => decide (bound ≤ t)

def tsLE (ts : Option String) (bound : String) : Bool :=
  match ts with
  | none => false
  | some t => decide (t ≤ bound)

/-- The shared WHERE-clause filters over a (message, session) pair:
agent, channel, `days`, `date_from`, `date_to`. -/
def rowFilters (ctx : SearchCtx) (agent channel : Option String)
    (days : Option Nat) (dateFrom dateTo : Option String)
    (m : MsgRow) (s : SessRow) : Bool :=
  (match optActive agent with
   | some a => decide (s.agent_id = a)
   | none => true) &&
  (match optActive channel with
   | some c => decide (s.channel = c)
   | none => true) &&
  (match daysActive days with
   | some d => tsGE m.timestamp (ctx.cutoffOfDays d)
   | none => true) &&
  (match dateFrom with
   | some b => tsGE m.timestamp b
   | none => true) &&
  (match dateTo with
   | some b => tsLE m.timestamp b
   | none => true)

/-- `keyword_search` (search.py lines 50-124): conjunctive FTS match over
all query words joined to sessions, filtered, ordered by ascending bm25
score, limited. -/
def keyword_search (ctx : SearchCtx) (db : DB) (query : String)
    (agent channel : Option String) (days : Option Nat) (limit : Nat)
    (dateFrom dateTo : Option String) : List SearchResult :=
  let words := queryWords query
  if words.isEmpty then []
  else
    let rows := db.messages.filterMap fun m =>
      (db.sessions.find? (fun s => s.id = m.session_id)).bind fun s =>
        if ftsMatchAll m.content words &&
            rowFilters ctx agent channel days dateFrom dateTo m s then
          some (⟨m.session_id, s.agent_id, s.channel, m.role, m.content,
            m.timestamp, ctx.bm25 query m.id⟩ : SearchResult)
        else none
    (List.insertionSort (fun a b => a.score ≤ b.score) rows).take limit

/-- One row of the semantic vector cache (`_build_embedding_cache`,
search.py lines 127-191): embeddings joined to messages and sessions under
the active filters, in embedding-table order. -/
structure CacheRow where
  mid : Nat
  session_id : String
  agent_id : String
  channel : String
  role : Option String
  content : String
  timestamp : Option String
  vec : List ℚ
deriving DecidableEq

def buildCacheRows (ctx : SearchCtx) (db : DB) (agent channel : Option String)
    (days : Option Nat) (dateFrom dateTo : Option String) : List CacheRow :=
  db.embeddings.filterMap fun e =>
    (db.messages.find? (fun m => m.id = e.message_id)).bind fun m =>
      (db.sessions.find? (fun s => s.id = m.session_id)).bind fun s =>
        if rowFilters ctx agent channel days dateFrom dateTo m s then
          some ⟨m.id, m.session_id, s.agent_id, s.channel, m.role, m.content,
            m.timestamp, e.vec⟩
        else none

def MIN_SIMILARITY : ℚ := mkRat 45 100

/-- The semantic candidate fingerprint `f"{role}:{content[:200]}"`
(search.py line 245); a NULL role renders as `"None"`. -/
def fpSem (role : Option String) (content : String) : String :=
  (match role with
   | some r => r
   | none => "None") ++ ":" ++ String.mk (content.toList.take 200)

/-- The `SearchResult` built from an accepted semantic candidate
(search.py lines 249-257). -/
def mkSemResult (r : CacheRow) (sim : ℚ) : SearchResult :=
  ⟨r.session_id, r.agent_id, r.channel, r.role, r.content, r.timestamp, sim⟩

/-- The result-building loop of `semantic_search` (search.py lines
237-259): walk similarity-sorted candidates; break at the first one below
`MIN_SIMILARITY`; skip fingerprints already seen; stop once `limit`
results are collected (checked after each append). -/
def walkCands (limit : Nat) :
    List (CacheRow × ℚ) → List String → List SearchResult → List SearchResult
  | [], _, acc => acc
  | (r, sim) :: rest, seen, acc =>
    if sim < MIN_SIMILARITY then acc
    else if fpSem r.role r.content ∈ seen then walkCands limit rest seen acc
    else if limit ≤ (acc ++ [mkSemResult r sim]).length then acc ++ [mkSemResult r sim]
    else walkCands limit rest (fpSem r.role r.content :: seen) (acc ++ [mkSemResult r sim])

/-- The candidate pipeline of `semantic_search` once the query embedding
has been obtained (search.py lines 216-261).  Candidate selection keeps
the numpy slice semantics of `np.argpartition(sims, -top_k)[-top_k:]`:
for `top_k = 0` the slice `[-0:]` is the whole array, so every candidate
is considered. -/
def semanticResults (ctx : SearchCtx) (db : DB) (agent channel : Option String)
    (days : Option Nat) (limit : Nat) (qv : List ℚ)
    (dateFrom dateTo : Option String) : List SearchResult :=
  let rows := buildCacheRows ctx db agent channel days dateFrom dateTo
  if rows.isEmpty then []
  else
    let scored := rows.map (fun r => (r, ctx.simOf r.vec qv))
    let sorted := List.insertionSort (fun a b => b.2 ≤ a.2) scored
    let topk := min (limit * 3) rows.length
    let cands := if topk = 0 then sorted else sorted.take topk
    walkCands limit cands [] []

/-- `semantic_search` (search.py lines 194-261).  `client? = none` models
`not OPENAI_AVAILABLE or openai_client is None` — the only unavailability
the function guards, answered by falling back to `keyword_search`.  With a
client present, the query-embedding network call
`openai_client.embeddings.create` (line 212) sits in no try/except: the
collaborator call is fallible (`Except.error` is the exception the client
raises when the service is unreachable), and its failure propagates out of
the function. -/
def semantic_search (ctx : SearchCtx) (db : DB) (query : String)
    (agent channel : Option String) (days : Option Nat) (limit : Nat)
    (client? : Option (String → Except String (List ℚ)))
    (dateFrom dateTo : Option String) : Except String (List SearchResult) :=
  match client? with
  | none =>
    .ok (keyword_search ctx db query agent channel days limit dateFrom dateTo)
  | some embed =>
    match embed query with
    | .error e => .error e
    | .ok qv =>
      .ok (semanticResults ctx db agent channel days limit qv dateFrom dateTo)

/-- The `f"{r.role}:{r.content[:500]}"` fingerprint of
`deduplicate_results` (search.py line 294). -/
def fp500 (role : Option String) (content : String) : String :=
  (match role with
   | some r => r
   | none => "None") ++ ":" ++ String.mk (content.toList.take 500)

/-- `deduplicate_results` (search.py lines 289-298).  Defined in the
source but invoked by no caller in the repository. -/
def deduplicate_results : List SearchResult → List String → List SearchResult
  | [], _ => []
  | r :: rest, seen =>
    if decide (fp500 r.role r.content ∈ seen) then deduplicate_results rest seen
    else r :: deduplicate_results rest (fp500 r.role r.content :: seen)

/-- `search_conversations` (search.py lines 302-345): the public search
interface.  `embedAvail` models `OPENAI_AVAILABLE` (and the constructed
client); it is handed to the semantic path only, whose uncaught
embedding-call failure propagates out of this function too. -/
def search_conversations (ctx : SearchCtx) (db : DB) (query : String)
    (agent channel : Option String) (days : Option Nat) (semantic : Bool)
    (limit : Nat) (embedAvail : Option (String → Except String (List ℚ)))
    (dateFrom dateTo : Option String) : Except String (List SearchResult) :=
  if semantic then
    semantic_search ctx db query agent channel days limit embedAvail dateFrom dateTo
  else
    .ok (keyword_search ctx db query agent channel days limit dateFrom dateTo)

/-- The claim's `(role, first 500 characters of content)` fingerprint of a
result, as a pair. -/
def fpPair (r : SearchResult) : Option String × List Char :=
  (r.role, r.content.toList.take 500)

/-- Case-insensitive containment of a term in some content: the
case-folded term occurs as a contiguous substring of the case-folded
content. -/
def containsCI (content term : String) : Prop :=
  ∃ l r, lowerChars content = l ++ lowerChars term ++ r

/-! ## Lemmas about the FTS tokenizer -/

theorem tokSplit_chunk_mid :
    ∀ (cs cur t : List Char), t ∈ tokSplit cs cur →
      ∃ l r, cur.reverse ++ cs = l ++ t ++ r := by
  intro cs
  induction cs with
  | nil =>
    intro cur t ht
    unfold tokSplit at ht
    by_cases hc : cur.isEmpty = true
    · rw [if_pos hc] at ht
      exact absurd ht (List.not_mem_nil t)
    · rw [if_neg hc] at ht
      rw [List.mem_singleton] at ht
      subst ht
      exact ⟨[], [], by simp⟩
  | cons c cs ih =>
    intro cur t ht
    unfold tokSplit at ht
    by_cases ha : c.isAlphanum = true
    · rw [if_pos ha] at ht
      obtain ⟨l, r, hlr⟩ := ih (c :: cur) t ht
      refine ⟨l, r, ?_⟩
      simpa [List.append_assoc] using hlr
    · rw [if_neg ha] at ht
      by_cases hc : cur.isEmpty = true
      · rw [if_pos hc] at ht
        obtain ⟨l, r, hlr⟩ := ih [] t ht
        have hcur : cur = [] := by
          cases cur with
          | nil => rfl
          | cons a b => simp [List.isEmpty_cons] at hc
        subst hcur
        refine ⟨c :: l, r, ?_⟩
        simp only [List.reverse_nil, List.nil_append] at hlr
        simp [hlr]
      · rw [if_neg hc] at ht
        rcases List.mem_cons.mp ht with ht | ht
        · subst ht
          exact ⟨[], c :: cs, by simp⟩
        · obtain ⟨l, r, hlr⟩ := ih [] t ht
          simp only [List.reverse_nil, List.nil_append] at hlr
          exact ⟨cur.reverse ++ c :: l, r, by simp [hlr, List.append_assoc]⟩

theorem phraseAt_mem :
    ∀ (ph ts : List (List Char)), phraseAt ph ts = true → ∀ t ∈ ph, t ∈ ts := by
  intro ph
  induction ph with
  | nil =>
    intro ts _ t ht
    simp at ht
  | cons p ps ih =>
    intro ts hm t ht
    cases ts with
    | nil => simp [phraseAt] at hm
    | cons u us =>
      simp only [phraseAt, Bool.and_eq_true, decide_eq_true_eq] at hm
      obtain ⟨hpu, hrest⟩ := hm
      rcases List.mem_cons.mp ht with ht | ht
      · subst ht
        rw [hpu]
        exact List.mem_cons_self _ _
      · exact List.mem_cons_of_mem _ (ih us hrest t ht)

theorem phraseMatch_mem (ph : List (List Char)) :
    ∀ ts, phraseMatch ph ts = true → ∀ t ∈ ph, t ∈ ts := by
  intro ts
  induction ts with
  | nil =>
    intro hm t ht
    simp only [phraseMatch, List.isEmpty_iff] at hm
    subst hm
    simp at ht
  | cons u us ih =>
    intro hm t ht
    simp only [phraseMatch, Bool.or_eq_true] at hm
    rcases hm with hm | hm
    · exact phraseAt_mem ph (u :: us) hm t ht
    · exact List.mem_cons_of_mem _ (ih hm t ht)

/-- A matching term's every token occurs (case-folded) as a contiguous
substring of the content. -/
theorem ftsTermMatch_token_mid (content term : String)
    (h : ftsTermMatch content term = true) :
    ∀ t ∈ tokenize term, ∃ l r, lowerChars content = l ++ t ++ r := by
  intro t ht
  unfold ftsTermMatch at h
  by_cases hph : (tokenize term).isEmpty
  · rw [if_pos hph] at h
    exact absurd h (by simp)
  · rw [if_neg hph] at h
    have hmem : t ∈ tokenize content := phraseMatch_mem _ _ h t ht
    obtain ⟨l, r, hlr⟩ := tokSplit_chunk_mid (lowerChars content) [] t hmem
    exact ⟨l, r, by simpa using hlr⟩

theorem tokSplit_all_alnum :
    ∀ (cs acc : List Char), (∀ c ∈ cs, c.isAlphanum = true) →
      ¬ (acc.isEmpty = true ∧ cs = []) →
      tokSplit cs acc = [acc.reverse ++ cs] := by
  intro cs
  induction cs with
  | nil =>
    intro acc _ hne
    unfold tokSplit
    rw [if_neg (fun h => hne ⟨h, rfl⟩)]
    simp
  | cons c cs ih =>
    intro acc hall hne
    unfold tokSplit
    rw [if_pos (hall c (List.mem_cons_self c cs))]
    rw [ih (c :: acc) (fun d hd => hall d (List.mem_cons_of_mem c hd))
      (by simp [List.isEmpty_cons])]
    simp [List.append_assoc]

/-- A nonempty, purely alphanumeric (case-folded) term is a single
token. -/
theorem tokenize_single (w : String)
    (hall : ∀ c ∈ lowerChars w, c.isAlphanum = true)
    (hne : lowerChars w ≠ []) :
    tokenize w = [lowerChars w] := by
  unfold tokenize
  rw [tokSplit_all_alnum (lowerChars w) [] hall (fun h => hne h.2)]
  simp

/-! ## C5 -/

/-- A trivial search context for concrete evaluations: bm25 constantly 0,
an empty clock cutoff, cosine similarity constantly 1. -/
def plainCtx : SearchCtx := ⟨fun _ _ => 0, fun _ => "", fun _ _ => 1⟩

def c5phraseDb : DB :=
  ⟨[⟨"s1", "Kit", "direct", none, none, none, 1, "/a/s1.jsonl"⟩],
   [⟨1, "s1", some "user", "foo bar baz", none, 0⟩], [], [], 2, 1, 2⟩

/-- C5 counterexample: the quote-stripped query term `foo-bar` is an FTS5
*phrase* of two tokens, so `keyword_search` returns the turn whose content
is `foo bar baz` — yet that content does not contain the query term
`foo-bar` as a case-insensitive substring, refuting the claim that every
returned turn's content contains every query term. -/
theorem c5_phrase_term_not_substring :
    (keyword_search plainCtx c5phraseDb "foo-bar" none none none 10 none none).map
      (·.content) = ["foo bar baz"] ∧
    ¬ containsCI "foo bar baz" "foo-bar" := by
  refine ⟨by decide, ?_⟩
  rintro ⟨l, r, h⟩
  have hin : '-' ∈ lowerChars "foo-bar" := by decide
  have hdash : '-' ∈ lowerChars "foo bar baz" := by
    rw [h]
    exact List.mem_append.mpr (Or.inl (List.mem_append.mpr (Or.inr hin)))
  exact absurd hdash (by decide)

/-- C5 (amended): lexical matching is conjunctive over all quote-stripped
terms at FTS5 phrase level.  Every returned turn's content contains,
case-insensitively, every token of every query term (the term's tokens in
fact occur consecutively in the content's token sequence); in particular a
term that case-folds to a single nonempty alphanumeric token — any term
without separator characters — is contained verbatim, case-insensitively,
as a substring.  Returned rows are sorted ascending by the native bm25
relevance score (lower is better).  A multi-token term such as `foo-bar`
phrase-matches content `foo bar baz` without being a substring of it, per
the counterexample. -/
theorem c5_keyword_phrase_tokens_contained_sorted (ctx : SearchCtx) (db : DB)
    (query : String) (agent channel : Option String) (days : Option Nat)
    (limit : Nat) (dateFrom dateTo : Option String) :
    (∀ res ∈ keyword_search ctx db query agent channel days limit dateFrom dateTo,
       ∀ w ∈ queryWords query,
         (∀ t ∈ tokenize w, ∃ l r, lowerChars res.content = l ++ t ++ r) ∧
         ((∀ c ∈ lowerChars w, c.isAlphanum = true) → containsCI res.content w)) ∧
    List.Sorted (fun a b : ℚ => a ≤ b)
      ((keyword_search ctx db query agent channel days limit dateFrom dateTo).map
        (·.score)) := by
  unfold keyword_search
  by_cases hw : (queryWords query).isEmpty
  · simp [hw]
  · simp only [hw, Bool.false_eq_true, if_neg, not_false_iff]
    set rows := db.messages.filterMap _ with hrows
    constructor
    · intro res hres w hwmem
      have hres' : res ∈ List.insertionSort (fun a b => a.score ≤ b.score) rows :=
        (List.take_sublist _ _).mem hres
      have hres'' : res ∈ rows :=
        (List.perm_insertionSort (fun a b => a.score ≤ b.score) rows).mem_iff.mp hres'
      rw [hrows, List.mem_filterMap] at hres''
      obtain ⟨m, _, hm⟩ := hres''
      rw [Option.bind_eq_some] at hm
      obtain ⟨s, _, hs⟩ := hm
      by_cases hcond : (ftsMatchAll m.content (queryWords query) &&
          rowFilters ctx agent channel days dateFrom dateTo m s) = true
      · rw [if_pos hcond] at hs
        have hmatch := (Bool.and_eq_true _ _).mp hcond |>.1
        unfold ftsMatchAll at hmatch
        rw [List.all_eq_true] at hmatch
        have hcontent : res.content = m.content := by
          cases hs; rfl
        rw [hcontent]
        have hterm : ftsTermMatch m.content w = true := hmatch w hwmem
        refine ⟨ftsTermMatch_token_mid m.content w hterm, ?_⟩
        intro hall
        have hwne : ¬ w = "" := by
          unfold queryWords at hwmem
          rw [List.mem_filter] at hwmem
          exact of_decide_eq_true hwmem.2
        have hlne : lowerChars w ≠ [] := by
          intro hnil
          apply hwne
          have hdata : w.toList = [] := List.map_eq_nil.mp hnil
          cases w with
          | mk data =>
            simp [String.toList] at hdata
            simp [hdata]
        exact ftsTermMatch_token_mid m.content w hterm (lowerChars w)
          (by rw [tokenize_single w hall hlne]; exact List.mem_singleton_self _)
      · rw [if_neg hcond] at hs
        exact absurd hs (by simp)
    · letI : IsTotal SearchResult (fun a b => a.score ≤ b.score) :=
        ⟨fun a b => le_total a.score b.score⟩
      letI : IsTrans SearchResult (fun a b => a.score ≤ b.score) :=
        ⟨fun _ _ _ hab hbc => le_trans hab hbc⟩
      have hsorted := List.sorted_insertionSort
        (fun (a b : SearchResult) => a.score ≤ b.score) rows
      have htake : List.Sorted (fun (a b : SearchResult) => a.score ≤ b.score)
          ((List.insertionSort (fun a b => a.score ≤ b.score) rows).take limit) :=
        hsorted.sublist (List.take_sublist _ _)
      exact htake.map _ (fun _ _ h => h)

def c5db : DB :=
  ⟨[⟨"s1", "Kit", "direct", none, none, none, 1, "/a/s1.jsonl"⟩],
   [⟨1, "s1", some "assistant", "We agreed to pause the LYFER campaign.",
      none, 0⟩], [], [], 2, 1, 2⟩

def c5res : SearchResult :=
  ⟨"s1", "Kit", "direct", some "assistant",
    "We agreed to pause the LYFER campaign.", none, 0⟩

/-- C5 witness: on a concrete store, the returned turn contains the
single-token query term case-insensitively. -/
theorem c5_keyword_phrase_tokens_contained_sorted_witness :
    c5res ∈ keyword_search plainCtx c5db "lyfer" none none none 10 none none ∧
    containsCI c5res.content "lyfer" :=
  ⟨by decide,
   ((c5_keyword_phrase_tokens_contained_sorted plainCtx c5db
     "lyfer" none none none 10 none none).1 c5res (by decide) "lyfer"
     (by decide)).2 (by decide)⟩

/-! ## C7 -/

/-- C7 counterexample: with a constructed client whose query-embedding
call fails (embedding service down), `semantic_search` propagates the
exception instead of returning the lexical results for the same query,
filters and limit — the call at search.py line 212 sits in no try/except,
so the semantic path does fail on embedding-collaborator unavailability. -/
theorem c7_embedding_call_failure_raises :
    semantic_search plainCtx DB.emptyDB "campaign" none none none 10
      (some (fun _ => Except.error "APIConnectionError")) none none =
      Except.error "APIConnectionError" ∧
    (Except.error "APIConnectionError" : Except String (List SearchResult)) ≠
      Except.ok (keyword_search plainCtx DB.emptyDB "campaign" none none none 10
        none none) :=
  ⟨rfl, fun h => Except.noConfusion h⟩

/-- C7 (amended): the only embedding-collaborator unavailability the code
guards is a missing client (OpenAI library absent or no client
constructed): then `semantic_search` — and `search_conversations` in
semantic mode — returns exactly the lexical search for the same query,
filters and limit.  A failure of the query-embedding network call itself
propagates out of the semantic path instead of degrading, per the
counterexample. -/
theorem c7_client_missing_falls_back (ctx : SearchCtx) (db : DB)
    (query : String) (agent channel : Option String) (days : Option Nat)
    (limit : Nat) (dateFrom dateTo : Option String) :
    semantic_search ctx db query agent channel days limit none dateFrom dateTo =
      Except.ok (keyword_search ctx db query agent channel days limit
        dateFrom dateTo) ∧
    search_conversations ctx db query agent channel days true limit none
        dateFrom dateTo =
      Except.ok (keyword_search ctx db query agent channel days limit
        dateFrom dateTo) :=
  ⟨rfl, rfl⟩

/-! ## C9 -/

/-- C9 counterexample: with 40 candidate messages and every batch
succeeding, after two batches 40 embeddings are uncommitted — more than
one batch's worth (`EMBEDDING_BATCH_SIZE = 20`), refuting the claim that
at most one batch is ever uncommitted. -/
theorem c9_two_batches_uncommitted :
    backfill_uncommitted (fun _ => true) 40 2 = 40 ∧
    EMBEDDING_BATCH_SIZE < backfill_uncommitted (fun _ => true) 40 2 := by
  constructor <;> decide

theorem backfill_uncommitted_le (success : Nat → Bool) (n : Nat) :
    ∀ k, backfill_uncommitted success n k ≤ EMBEDDING_BATCH_SIZE * (k % 25) := by
  intro k
  induction k with
  | zero => simp [backfill_uncommitted]
  | succ k ih =>
    unfold backfill_uncommitted
    have hmod : (EMBEDDING_BATCH_SIZE * k + EMBEDDING_BATCH_SIZE) % 500 =
        EMBEDDING_BATCH_SIZE * ((k + 1) % 25) := by
      have : EMBEDDING_BATCH_SIZE * k + EMBEDDING_BATCH_SIZE =
          EMBEDDING_BATCH_SIZE * (k + 1) := by ring
      rw [this]
      have h500 : (500 : Nat) = EMBEDDING_BATCH_SIZE * 25 := by decide
      rw [h500, Nat.mul_mod_mul_left]
    by_cases hz : (EMBEDDING_BATCH_SIZE * k + EMBEDDING_BATCH_SIZE) % 500 = 0
    · simp [hz]
    · simp only [hz, if_neg, not_false_iff]
      have hne : (k + 1) % 25 ≠ 0 := by
        intro h
        rw [hmod, h, Nat.mul_zero] at hz
        exact hz rfl
      have hstep : (k + 1) % 25 = k % 25 + 1 := by omega
      have hins : (if success k then min EMBEDDING_BATCH_SIZE
          (n - EMBEDDING_BATCH_SIZE * k) else 0) ≤ EMBEDDING_BATCH_SIZE := by
        split
        · exact Nat.min_le_left _ _
        · exact Nat.zero_le _
      rw [hstep, Nat.mul_add, Nat.mul_one]
      omega

/-! ## Lemmas about the semantic result walk -/

theorem walkCands_length_le (limit : Nat) :
    ∀ (cands : List (CacheRow × ℚ)) (seen : List String) (acc : List SearchResult),
      acc.length < limit → (walkCands limit cands seen acc).length ≤ limit := by
  intro cands
  induction cands with
  | nil =>
    intro seen acc h
    simpa [walkCands] using Nat.le_of_lt h
  | cons p rest ih =>
    intro seen acc h
    obtain ⟨r, sim⟩ := p
    simp only [walkCands]
    split
    · exact Nat.le_of_lt h
    · split
      · exact ih seen acc h
      · split
        · simpa using h
        · next h3 =>
          apply ih
          simp only [List.length_append, List.length_singleton] at h3 ⊢
          omega

theorem walkCands_min_similarity (limit : Nat) :
    ∀ (cands : List (CacheRow × ℚ)) (seen : List String) (acc : List SearchResult),
      (∀ x ∈ acc, MIN_SIMILARITY ≤ x.score) →
      ∀ x ∈ walkCands limit cands seen acc, MIN_SIMILARITY ≤ x.score := by
  intro cands
  induction cands with
  | nil =>
    intro seen acc hacc
    simpa [walkCands] using hacc
  | cons p rest ih =>
    intro seen acc hacc
    obtain ⟨r, sim⟩ := p
    have hmem : ∀ x ∈ acc ++ [mkSemResult r sim], ¬ sim < MIN_SIMILARITY →
        MIN_SIMILARITY ≤ x.score := by
      intro x hx hsim
      rcases List.mem_append.mp hx with hx | hx
      · exact hacc x hx
      · rw [List.mem_singleton] at hx
        subst hx
        exact not_lt.mp hsim
    simp only [walkCands]
    split
    · exact hacc
    · next h1 =>
      split
      · exact ih seen acc hacc
      · split
        · exact fun x hx => hmem x hx h1
        · exact ih _ _ (fun x hx => hmem x hx h1)

theorem walkCands_sorted_desc (limit : Nat) :
    ∀ (cands : List (CacheRow × ℚ)) (seen : List String) (acc : List SearchResult),
      List.Sorted (fun a b : ℚ => b ≤ a) (acc.map (·.score) ++ cands.map (·.2)) →
      List.Sorted (fun a b : ℚ => b ≤ a)
        ((walkCands limit cands seen acc).map (·.score)) := by
  intro cands
  induction cands with
  | nil =>
    intro seen acc h
    simpa [walkCands] using h
  | cons p rest ih =>
    intro seen acc h
    obtain ⟨r, sim⟩ := p
    simp only [List.map_cons] at h
    have hshape : acc.map (·.score) ++ sim :: rest.map (·.2) =
        ((acc ++ [mkSemResult r sim]).map (·.score)) ++ rest.map (·.2) := by
      simp [mkSemResult, List.append_assoc]
    simp only [walkCands]
    split
    · exact h.sublist (by
        simpa using List.Sublist.append_left
          (List.nil_sublist (sim :: rest.map (·.2))) (acc.map (·.score)))
    · split
      · exact ih seen acc (h.sublist
          (List.Sublist.append_left (List.sublist_cons_self _ _) _))
      · split
        · refine h.sublist ?_
          rw [hshape]
          exact List.sublist_append_left _ _
        · apply ih
          rw [← hshape]
          exact h

/-- The 200-character fingerprint of a returned result, as the source
computes it. -/
def fpRes (x : SearchResult) : String := fpSem x.role x.content

theorem walkCands_fp_nodup (limit : Nat) :
    ∀ (cands : List (CacheRow × ℚ)) (seen : List String) (acc : List SearchResult),
      ((acc.map fpRes).Nodup) → (∀ x ∈ acc, fpRes x ∈ seen) →
      ((walkCands limit cands seen acc).map fpRes).Nodup := by
  intro cands
  induction cands with
  | nil =>
    intro seen acc hnd _
    simpa [walkCands] using hnd
  | cons p rest ih =>
    intro seen acc hnd hsub
    obtain ⟨r, sim⟩ := p
    simp only [walkCands]
    split
    · exact hnd
    · split
      · exact ih seen acc hnd hsub
      · next h2 =>
        have hfp : fpRes (mkSemResult r sim) = fpSem r.role r.content := rfl
        have hnotin : fpSem r.role r.content ∉ acc.map fpRes := by
          intro hin
          rw [List.mem_map] at hin
          obtain ⟨x, hx, hfx⟩ := hin
          exact h2 (hfx ▸ hsub x hx)
        have hnd' : ((acc ++ [mkSemResult r sim]).map fpRes).Nodup := by
          rw [List.map_append]
          refine ((acc.map fpRes).perm_append_singleton _).nodup_iff.mpr ?_
          rw [List.nodup_cons]
          exact ⟨by simpa [hfp] using hnotin, hnd⟩
        split
        · exact hnd'
        · refine ih _ _ hnd' ?_
          intro x hx
          rcases List.mem_append.mp hx with hx | hx
          · exact List.mem_cons_of_mem _ (hsub x hx)
          · rw [List.mem_singleton] at hx
            subst hx
            rw [hfp]
            exact List.mem_cons_self _ _

/-- Inversion of a successful semantic run: the client's embedding call
returned a vector and the result is the candidate pipeline on it. -/
theorem semantic_search_ok_inv {ctx : SearchCtx} {db : DB} {query : String}
    {agent channel : Option String} {days : Option Nat} {limit : Nat}
    {embed : String → Except String (List ℚ)} {dateFrom dateTo : Option String}
    {res : List SearchResult}
    (h : semantic_search ctx db query agent channel days limit (some embed)
      dateFrom dateTo = Except.ok res) :
    ∃ qv, embed query = Except.ok qv ∧
      res = semanticResults ctx db agent channel days limit qv dateFrom dateTo := by
  unfold semantic_search at h
  cases hq : embed query with
  | error e =>
    simp only [hq] at h
    exact Except.noConfusion h
  | ok qv =>
    simp only [hq] at h
    refine ⟨qv, rfl, ?_⟩
    injection h with h
    exact h.symm

/-! ## C6 -/

def c6db : DB :=
  ⟨[⟨"s1", "Kit", "direct", none, none, none, 1, "/a/s1.jsonl"⟩],
   [⟨1, "s1", some "user", "discussing facebook advertising spend", none, 0⟩],
   [⟨1, 1, []⟩], [], 2, 2, 2⟩

def c6single : List SearchResult :=
  [⟨"s1", "Kit", "direct", some "user",
    "discussing facebook advertising spend", none, 1⟩]

/-- C6 counterexample: `limit = 0` does not return at most `limit`
results.  `top_k = min(0·3, 1) = 0` makes the numpy slice `[-0:]` select
every candidate, and the first candidate at or above the similarity floor
is appended before the `len(results) >= limit` check fires, so one result
is returned. -/
theorem c6_limit_zero_returns_result :
    semantic_search plainCtx c6db "ads" none none none 0
      (some (fun _ => Except.ok [])) none none = Except.ok c6single ∧
    c6single.length = 1 :=
  ⟨rfl, rfl⟩

/-- C6 (amended): for every semantic query with `limit ≥ 1` whose
embedding call succeeds, every returned result's similarity score is at
least the `MIN_SIMILARITY` floor (0.45), the result list is sorted
descending by score, and at most `limit` results are returned; candidates
are walked in descending similarity order and the walk stops at the first
candidate below the floor.  (For `limit = 0` the length bound fails, per
the counterexample.) -/
theorem c6_semantic_floor_sorted_limit (ctx : SearchCtx) (db : DB)
    (query : String) (agent channel : Option String) (days : Option Nat)
    (limit : Nat) (embed : String → Except String (List ℚ))
    (dateFrom dateTo : Option String) (hl : 0 < limit) :
    ∀ res, semantic_search ctx db query agent channel days limit (some embed)
        dateFrom dateTo = Except.ok res →
      (∀ x ∈ res, MIN_SIMILARITY ≤ x.score) ∧
      List.Sorted (fun a b : ℚ => b ≤ a) (res.map (·.score)) ∧
      res.length ≤ limit := by
  intro res h
  obtain ⟨qv, _, hres⟩ := semantic_search_ok_inv h
  subst hres
  unfold semanticResults
  by_cases hr : (buildCacheRows ctx db agent channel days dateFrom dateTo).isEmpty
  · simp [hr]
  · simp only [hr, Bool.false_eq_true, if_neg, not_false_iff]
    set rows := buildCacheRows ctx db agent channel days dateFrom dateTo with hrows
    set scored := rows.map (fun r => (r, ctx.simOf r.vec qv)) with hscored
    set sorted := List.insertionSort (fun a b => b.2 ≤ a.2) scored with hsorted
    set cands := if min (limit * 3) rows.length = 0 then sorted
      else sorted.take (min (limit * 3) rows.length) with hcands
    have hsort : List.Sorted (fun (a b : CacheRow × ℚ) => b.2 ≤ a.2) cands := by
      letI : IsTotal (CacheRow × ℚ) (fun a b => b.2 ≤ a.2) :=
        ⟨fun a b => le_total b.2 a.2⟩
      letI : IsTrans (CacheRow × ℚ) (fun a b => b.2 ≤ a.2) :=
        ⟨fun _ _ _ hab hbc => le_trans hbc hab⟩
      have h0 := List.sorted_insertionSort (fun (a b : CacheRow × ℚ) => b.2 ≤ a.2) scored
      rw [hcands]
      split
      · exact h0
      · exact h0.sublist (List.take_sublist _ _)
    have hsnd : List.Sorted (fun a b : ℚ => b ≤ a) (cands.map (·.2)) :=
      hsort.map _ (fun _ _ h => h)
    refine ⟨walkCands_min_similarity limit cands [] [] (by simp),
      walkCands_sorted_desc limit cands [] [] (by simpa using hsnd),
      walkCands_length_le limit cands [] [] (by simpa using hl)⟩

/-- C6 witness: a concrete semantic query with `limit = 5` returns at most
5 results. -/
theorem c6_semantic_floor_sorted_limit_witness :
    0 < 5 ∧
    semantic_search plainCtx c6db "ads" none none none 5
      (some (fun _ => Except.ok [])) none none = Except.ok c6single ∧
    c6single.length ≤ 5 :=
  ⟨by decide, rfl,
   (c6_semantic_floor_sorted_limit plainCtx c6db "ads" none none none 5
     (fun _ => Except.ok []) none none (by decide) c6single rfl).2.2⟩

/-! ## C3 -/

theorem fpPair_eq_fpRes {x y : SearchResult} (h : fpPair x = fpPair y) :
    fpRes x = fpRes y := by
  unfold fpPair at h
  rw [Prod.mk.injEq] at h
  obtain ⟨h1, h2⟩ := h
  have h200 : x.content.toList.take 200 = y.content.toList.take 200 := by
    have h' := congrArg (List.take 200) h2
    rw [List.take_take, List.take_take] at h'
    norm_num at h'
    exact h'
  unfold fpRes fpSem
  rw [h1, h200]

def c3db : DB :=
  ⟨[⟨"s1", "Kit", "direct", none, none, none, 1, "/a/s1.jsonl"⟩,
    ⟨"s2", "Kit", "direct", none, none, none, 1, "/b/s2.jsonl"⟩],
   [⟨1, "s1", some "assistant", "We agreed to pause the LYFER campaign.", none, 0⟩,
    ⟨2, "s2", some "assistant", "We agreed to pause the LYFER campaign.", none, 0⟩],
   [], [], 3, 1, 3⟩

/-- C3 counterexample: the lexical path of the search interface applies no
fingerprint deduplication pass — `search_conversations` in keyword mode
returns the raw `keyword_search` rows, and two identical turns surfaced
from two overlapping session snapshots are both returned, sharing the same
(role, first-500-characters) fingerprint. -/
theorem c3_lexical_duplicate_fingerprints :
    search_conversations plainCtx c3db "LYFER" none none none false 10
        none none none =
      Except.ok (keyword_search plainCtx c3db "LYFER" none none none 10
        none none) ∧
    ¬ ((keyword_search plainCtx c3db "LYFER" none none none 10
        none none).map fpPair).Nodup :=
  ⟨rfl, by decide⟩

/-- C3 (amended): deduplication holds on the semantic path — no two
results of a successful `semantic_search` run share a
(role, first-500-characters) fingerprint, enforced by the stricter
(role, first-200-characters) fingerprint set used during candidate
selection — but the lexical path of `search_conversations` returns
`keyword_search` results without any deduplication pass
(`deduplicate_results` exists in the source but is never invoked), so
lexical result lists can repeat fingerprints. -/
theorem c3_semantic_fingerprints_unique (ctx : SearchCtx) (db : DB)
    (query : String) (agent channel : Option String) (days : Option Nat)
    (limit : Nat) (embed : String → Except String (List ℚ))
    (dateFrom dateTo : Option String) :
    ∀ res, semantic_search ctx db query agent channel days limit (some embed)
        dateFrom dateTo = Except.ok res →
      (res.map fpPair).Nodup := by
  intro res h
  obtain ⟨qv, _, hres⟩ := semantic_search_ok_inv h
  subst hres
  unfold semanticResults
  by_cases hr : (buildCacheRows ctx db agent channel days dateFrom dateTo).isEmpty
  · simp [hr]
  · simp only [hr, Bool.false_eq_true, if_neg, not_false_iff]
    set cands := if min (limit * 3)
        (buildCacheRows ctx db agent channel days dateFrom dateTo).length = 0 then
        List.insertionSort (fun a b => b.2 ≤ a.2)
          ((buildCacheRows ctx db agent channel days dateFrom dateTo).map
            (fun r => (r, ctx.simOf r.vec qv)))
      else
        (List.insertionSort (fun a b => b.2 ≤ a.2)
          ((buildCacheRows ctx db agent channel days dateFrom dateTo).map
            (fun r => (r, ctx.simOf r.vec qv)))).take
          (min (limit * 3) (buildCacheRows ctx db agent channel days dateFrom dateTo).length)
    have hfp : ((walkCands limit cands [] []).map fpRes).Nodup :=
      walkCands_fp_nodup limit cands [] [] (by simp) (by simp)
    have hres : (walkCands limit cands [] []).Nodup := hfp.of_map _
    exact hres.map_on (fun x hx y hy hxy =>
      List.inj_on_of_nodup_map hfp hx hy (fpPair_eq_fpRes hxy))

def c3semDb : DB :=
  ⟨[⟨"s3", "Kit", "direct", none, none, none, 1, "/a/s3.jsonl"⟩],
   [⟨1, "s3", some "assistant", "pausing the advertising campaign", none, 0⟩],
   [⟨1, 1, []⟩], [], 2, 2, 2⟩

def c3semRes : List SearchResult :=
  [⟨"s3", "Kit", "direct", some "assistant",
    "pausing the advertising campaign", none, 1⟩]

/-- C3 witness: a concrete successful semantic run whose result list has
pairwise distinct fingerprints. -/
theorem c3_semantic_fingerprints_unique_witness :
    semantic_search plainCtx c3semDb "ads" none none none 5
      (some (fun _ => Except.ok [])) none none = Except.ok c3semRes ∧
    (c3semRes.map fpPair).Nodup :=
  ⟨rfl,
   c3_semantic_fingerprints_unique plainCtx c3semDb "ads" none none none 5
     (fun _ => Except.ok []) none none c3semRes rfl⟩

/-- C9 (amended): the backfill loop commits every 25th batch — every 500
candidate messages — so at most 500 messages' worth (25 batches, not one)
of newly inserted embeddings is uncommitted at any point of the loop, both
after an iteration and mid-iteration just before a conditional commit. -/
theorem c9_backfill_at_most_25_batches_uncommitted (success : Nat → Bool)
    (n k : Nat) :
    backfill_uncommitted success n k ≤ 25 * EMBEDDING_BATCH_SIZE ∧
    backfill_uncommitted success n k +
      min EMBEDDING_BATCH_SIZE (n - EMBEDDING_BATCH_SIZE * k) ≤
      25 * EMBEDDING_BATCH_SIZE := by
  have h := backfill_uncommitted_le success n k
  have hmod : k % 25 < 25 := Nat.mod_lt _ (by decide)
  constructor
  · calc backfill_uncommitted success n k ≤ EMBEDDING_BATCH_SIZE * (k % 25) := h
      _ ≤ 25 * EMBEDDING_BATCH_SIZE := by
        have : EMBEDDING_BATCH_SIZE * (k % 25) ≤ EMBEDDING_BATCH_SIZE * 24 :=
          Nat.mul_le_mul_left _ (by omega)
        omega
  · have hmin : min EMBEDDING_BATCH_SIZE (n - EMBEDDING_BATCH_SIZE * k) ≤
        EMBEDDING_BATCH_SIZE := Nat.min_le_left _ _
    have : EMBEDDING_BATCH_SIZE * (k % 25) ≤ EMBEDDING_BATCH_SIZE * 24 :=
      Nat.mul_le_mul_left _ (by omega)
    omega

/-! ## C2 -/

/-- C2: re-ingestion of an unchanged file is a no-op.  First, when the
ledger holds an entry for the file's path with the file's current size,
`index_session_file` returns a skip and leaves the store untouched.
Second, immediately re-ingesting any file that was just indexed skips and
leaves the store exactly as after the first ingestion, so ingesting the
same unchanged file twice yields the same Session/Turn/Embedding rows as
ingesting it once.  The well-formedness hypothesis is the schema's UNIQUE
constraint on ledger paths. -/
theorem c2_unchanged_file_reingest_noop (ctx : IngestCtx) (f : SrcFile) (tx : TxDB)
    (hwf : (tx.current.index_log.map (·.source_file)).Nodup) :
    (∀ r, findLog tx.current.index_log f.path = some r → r.file_size = f.size →
      index_session_file ctx f tx = (tx, .skippedAlreadyIndexed)) ∧
    (∀ tx' n e, index_session_file ctx f tx = (tx', .indexed n e) →
      index_session_file ctx f tx' = (tx', .skippedAlreadyIndexed)) := by
  constructor
  · intro r hr hsz
    unfold index_session_file
    simp only [hr]
    rw [if_pos hsz]
  · intro tx' n e h
    unfold index_session_file at h ⊢
    cases hfind : findLog tx.current.index_log f.path with
    | none =>
      simp only [hfind] at h
      obtain ⟨hm0, hn, htx⟩ := ingestBody_indexed_inv h
      subst htx
      have hfind2 : findLog (ingestedDB ctx f tx.current).index_log f.path =
          some ⟨tx.current.next_log_id, f.path, f.size, f.mtime,
            (extract_messages f.entries).1.length⟩ := by
        unfold findLog at hfind ⊢
        rw [ingestedDB_index_log, List.find?_append, hfind]
        simp
      simp only [hfind2]
      simp
    | some ex =>
      simp only [hfind] at h
      by_cases hsz : ex.file_size = f.size
      · rw [if_pos hsz] at h
        exact absurd h (by simp)
      · rw [if_neg hsz] at h
        obtain ⟨hm0, hn, htx⟩ := ingestBody_indexed_inv h
        subst htx
        have hexmem : ex ∈ tx.current.index_log := List.mem_of_find?_eq_some hfind
        have hexpath : ex.source_file = f.path := by
          have := List.find?_some hfind
          simpa using this
        have hdelnone : findLog (deletePhase (stem f.path) ex.id
            tx.current).index_log f.path = none := by
          unfold findLog
          rw [deletePhase_index_log, List.find?_eq_none]
          intro r hr hpath
          rw [List.mem_filter] at hr
          obtain ⟨hrl, hrid⟩ := hr
          have hreq : r = ex := List.inj_on_of_nodup_map hwf hrl hexmem
            (by rw [of_decide_eq_true hpath, hexpath])
          subst hreq
          simp at hrid
        have hfind2 : findLog (ingestedDB ctx f
            (deletePhase (stem f.path) ex.id tx.current)).index_log f.path =
            some ⟨(deletePhase (stem f.path) ex.id tx.current).next_log_id,
              f.path, f.size, f.mtime, (extract_messages f.entries).1.length⟩ := by
          unfold findLog at hdelnone ⊢
          rw [ingestedDB_index_log, List.find?_append, hdelnone]
          simp
        simp only [hfind2]
        simp

def plainIngest : IngestCtx := ⟨fun _ => ⟨"Kit", "direct", none⟩, none⟩

def c2file : SrcFile :=
  ⟨"/a/s1.jsonl", 10, "t0",
    [⟨some "message", some ⟨some "user", some (.str "hello world")⟩, none, none, none⟩]⟩

def c2tx1 : TxDB := (index_session_file plainIngest c2file TxDB.emptyTx).1

/-- C2 witness: a concrete file indexed into an empty store; the second
ingestion of the unchanged file skips and leaves the store unchanged. -/
theorem c2_unchanged_file_reingest_noop_witness :
    index_session_file plainIngest c2file c2tx1 = (c2tx1, .skippedAlreadyIndexed) :=
  (c2_unchanged_file_reingest_noop plainIngest c2file TxDB.emptyTx (by decide)).2
    c2tx1 1 0 (by decide)

/-! ## C4 -/

/-- C4: ingesting one file into a fresh state (no turns stored under its
stem) or via the replace path (ledger entry with a different size, whose
delete block clears the stem's turns) persists turns whose sequence
indices are exactly 0..N-1, in the extracted (noise-filtered) order. -/
theorem c4_sequence_indices_dense (ctx : IngestCtx) (f : SrcFile) (tx tx' : TxDB)
    (n e : Nat)
    (hstate : tx.current.messages.filter
        (fun m => decide (m.session_id = stem f.path)) = [] ∨
      ∃ ex, findLog tx.current.index_log f.path = some ex ∧ ¬ ex.file_size = f.size)
    (h : index_session_file ctx f tx = (tx', .indexed n e)) :
    (tx'.current.messages.filter
        (fun m => decide (m.session_id = stem f.path))).map (·.message_index) =
      List.range n ∧
    (tx'.current.messages.filter
        (fun m => decide (m.session_id = stem f.path))).map (·.content) =
      (extract_messages f.entries).1.map (·.content) := by
  unfold index_session_file at h
  have key : ∃ db0 : DB, tx'.current = ingestedDB ctx f db0 ∧
      db0.messages.filter (fun m => decide (m.session_id = stem f.path)) = [] ∧
      n = (extract_messages f.entries).1.length := by
    cases hfind : findLog tx.current.index_log f.path with
    | none =>
      simp only [hfind] at h
      obtain ⟨hm0, hn, htx⟩ := ingestBody_indexed_inv h
      refine ⟨tx.current, by rw [htx], ?_, hn⟩
      rcases hstate with hs | ⟨ex, hex, _⟩
      · exact hs
      · rw [hfind] at hex
        exact absurd hex (by simp)
    | some ex =>
      simp only [hfind] at h
      by_cases hsz : ex.file_size = f.size
      · rw [if_pos hsz] at h
        exact absurd h (by simp)
      · rw [if_neg hsz] at h
        obtain ⟨hm0, hn, htx⟩ := ingestBody_indexed_inv h
        refine ⟨deletePhase (stem f.path) ex.id tx.current, by rw [htx], ?_, hn⟩
        rw [deletePhase_messages, List.filter_filter, List.filter_eq_nil]
        intro m _
        simp
  obtain ⟨db0, htx, hflt, hn⟩ := key
  rw [htx, ingestedDB_messages, List.filter_append, hflt, List.nil_append,
    msgsToRows_filter_self]
  subst hn
  exact ⟨msgsToRows_map_index _ _ _, msgsToRows_map_content _ _ _⟩

def c4file : SrcFile :=
  ⟨"/a/s4.jsonl", 9, "t0",
    [⟨some "message", some ⟨some "user", some (.str "first message")⟩, none, none, none⟩,
     ⟨some "message", some ⟨some "toolResult", some (.str "noise")⟩, none, none, none⟩,
     ⟨some "message", some ⟨some "assistant", some (.str "second message")⟩,
       none, none, none⟩]⟩

/-- C4 witness: a concrete file with one tool-result record among three
persists two turns with indices exactly 0 and 1. -/
theorem c4_sequence_indices_dense_witness :
    ((index_session_file plainIngest c4file TxDB.emptyTx).1.current.messages.filter
        (fun m => decide (m.session_id = stem c4file.path))).map (·.message_index) =
      List.range 2 :=
  (c4_sequence_indices_dense plainIngest c4file TxDB.emptyTx
    (index_session_file plainIngest c4file TxDB.emptyTx).1 2 0
    (Or.inl (by decide)) (by decide)).1

/-! ## C1 -/

def c1fileV1 : SrcFile :=
  ⟨"/logs/s1.jsonl", 10, "t0",
    [⟨some "message", some ⟨some "user", some (.str "hello ingestion world")⟩,
      none, none, none⟩]⟩

def c1fileV2 : SrcFile :=
  ⟨"/logs/s1.jsonl", 20, "t1",
    [⟨some "message", some ⟨some "toolResult", some (.str "tool output")⟩,
      none, none, none⟩]⟩

def c1fileB : SrcFile :=
  ⟨"/logs/s2.jsonl", 6, "t1",
    [⟨some "message", some ⟨some "user", some (.str "second file content")⟩,
      none, none, none⟩]⟩

def c1tx1 : TxDB := (index_session_file plainIngest c1fileV1 TxDB.emptyTx).1

def c1run : TxDB × DirResults :=
  index_directory plainIngest [c1fileV2, c1fileB] c1tx1

/-- C1 (code bug): ingestion is not atomic per file.  `/logs/s1.jsonl` is
fully committed (session, one turn, ledger row); the file then changes
size and its new content extracts no messages, so `index_session_file`
executes the DELETEs, hits the `no messages` early return, and neither
commits nor rolls back; the next file's `conn.commit()` then persists the
orphaned deletes.  After the directory run the committed store has lost
the file's Session, Turns and ledger entry with no replacement rows, while
the run reports one skip and one success — no error. -/
theorem c1_reingest_without_messages_commits_orphan_deletes :
    (c1tx1.committed.sessions.map (·.id) = ["s1"] ∧
     c1tx1.committed.messages.length = 1 ∧
     (findLog c1tx1.committed.index_log "/logs/s1.jsonl").isSome = true) ∧
    (index_session_file plainIngest c1fileV2 c1tx1).2 = .skippedNoMessages ∧
    (c1run.2.skipped = 1 ∧ c1run.2.indexed = 1) ∧
    (c1run.1.committed.sessions.map (·.id) = ["s2"] ∧
     c1run.1.committed.messages.filter
       (fun m => decide (m.session_id = "s1")) = [] ∧
     findLog c1run.1.committed.index_log "/logs/s1.jsonl" = none) := by
  decide

/-! ## C10 -/

/-- C10: the session identifier is the filename stem, not the full path.
Ingesting two distinct paths with the same stem into an empty store leaves
a single session row (the second file's, via INSERT OR REPLACE) holding
both files' turns under the shared id, while each file keeps its own
ledger entry keyed by full path; and re-ingesting the first file after a
size change deletes — keyed by stem — the second file's turns and
embeddings as well, while the second file's ledger entry survives. -/
theorem c10_stem_collision_shares_session (ctx : IngestCtx) (f1 f2 f3 : SrcFile)
    (hne : ¬ f1.path = f2.path)
    (hstem : stem f2.path = stem f1.path)
    (h3p : f3.path = f1.path) (h3s : ¬ f3.size = f1.size)
    (tx1 tx2 tx3 : TxDB) (n1 e1 n2 e2 n3 e3 : Nat)
    (h1 : index_session_file ctx f1 TxDB.emptyTx = (tx1, .indexed n1 e1))
    (h2 : index_session_file ctx f2 tx1 = (tx2, .indexed n2 e2))
    (h3 : index_session_file ctx f3 tx2 = (tx3, .indexed n3 e3)) :
    tx2.current.sessions.map (fun s => (s.id, s.source_file)) =
      [(stem f1.path, f2.path)] ∧
    tx2.current.index_log.map (·.source_file) = [f1.path, f2.path] ∧
    (tx2.current.messages.filter
      (fun m => decide (m.session_id = stem f1.path))).length = n1 + n2 ∧
    tx3.current.messages.length = n3 ∧
    tx3.current.index_log.map (·.source_file) = [f2.path, f1.path] ∧
    (∀ emb ∈ tx3.current.embeddings, ∀ m ∈ tx2.current.messages,
      ¬ emb.message_id = m.id) := by
  -- first ingestion, from the empty store
  have h1' : ingestBody ctx f1 TxDB.emptyTx = (tx1, .indexed n1 e1) := h1
  obtain ⟨hm1, hn1, htx1⟩ := ingestBody_indexed_inv h1'
  have htx1c : tx1.current = ingestedDB ctx f1 DB.emptyDB := by
    rw [htx1]
    rfl
  -- second ingestion: f2's path has no ledger entry
  have hfind2 : findLog (ingestedDB ctx f1 DB.emptyDB).index_log f2.path = none := by
    unfold findLog
    rw [ingestedDB_index_log]
    simp [DB.emptyDB, hne]
  unfold index_session_file at h2
  rw [htx1c] at h2
  simp only [hfind2] at h2
  obtain ⟨hm2, hn2, htx2⟩ := ingestBody_indexed_inv h2
  have htx2c : tx2.current = ingestedDB ctx f2 (ingestedDB ctx f1 DB.emptyDB) := by
    rw [htx2, htx1c]
  -- facts about the store after the second ingestion
  have hall2 : ∀ m ∈ tx2.current.messages,
      m.session_id = stem f1.path ∧ m.id < tx2.current.next_msg_id := by
    intro m hm
    rw [htx2c] at hm ⊢
    rw [ingestedDB_messages, ingestedDB_messages] at hm
    rw [ingestedDB_next_msg_id, ingestedDB_next_msg_id]
    rcases List.mem_append.mp hm with hm | hm
    · rcases List.mem_append.mp hm with hm | hm
      · simp [DB.emptyDB] at hm
      · have hfacts := msgsToRows_mem _ _ _ m hm
        exact ⟨hfacts.1, by omega⟩
    · have hfacts := msgsToRows_mem _ _ _ m hm
      refine ⟨by rw [← hstem]; exact hfacts.1, ?_⟩
      rw [ingestedDB_next_msg_id] at hfacts
      omega
  have hembs2 : ∀ x ∈ tx2.current.embeddings, ∃ mm ∈ tx2.current.messages,
      x.message_id = mm.id := by
    intro x hx
    rw [htx2c, ingestedDB_embeddings, ingestedDB_embeddings] at hx
    rcases List.mem_append.mp hx with hx | hx
    · rcases List.mem_append.mp hx with hx | hx
      · simp [DB.emptyDB] at hx
      · unfold ingestEmbRows at hx
        cases hce : ctx.embed? with
        | none =>
          rw [hce] at hx
          simp at hx
        | some fn =>
          rw [hce] at hx
          obtain ⟨mm, hmm, hx2⟩ := embedInserts_message_id fn _ _ x hx
          refine ⟨mm, ?_, hx2⟩
          rw [htx2c, ingestedDB_messages, ingestedDB_messages]
          exact List.mem_append.mpr (Or.inl (List.mem_append.mpr (Or.inr hmm)))
    · unfold ingestEmbRows at hx
      cases hce : ctx.embed? with
      | none =>
        rw [hce] at hx
        simp at hx
      | some fn =>
        rw [hce] at hx
        obtain ⟨mm, hmm, hx2⟩ := embedInserts_message_id fn _ _ x hx
        refine ⟨mm, ?_, hx2⟩
        rw [htx2c, ingestedDB_messages]
        exact List.mem_append.mpr (Or.inr hmm)
  -- third ingestion: f1's ledger entry is found, size differs
  have hfind3 : findLog tx2.current.index_log f3.path =
      some ⟨DB.emptyDB.next_log_id, f1.path, f1.size, f1.mtime,
        (extract_messages f1.entries).1.length⟩ := by
    rw [htx2c]
    unfold findLog
    rw [ingestedDB_index_log, ingestedDB_index_log, h3p]
    simp [DB.emptyDB]
  unfold index_session_file at h3
  simp only [hfind3] at h3
  rw [if_neg (fun hh => h3s hh.symm)] at h3
  obtain ⟨hm3, hn3, htx3⟩ := ingestBody_indexed_inv h3
  have htx3c : tx3.current = ingestedDB ctx f3
      (deletePhase (stem f3.path) DB.emptyDB.next_log_id tx2.current) := by
    rw [htx3]
  -- the delete phase removes every turn (both files') under the shared stem
  have hdel : (deletePhase (stem f3.path) DB.emptyDB.next_log_id
      tx2.current).messages = [] := by
    rw [deletePhase_messages, List.filter_eq_nil]
    intro m hm
    have hsid := (hall2 m hm).1
    rw [h3p]
    simp [hsid]
  refine ⟨?_, ?_, ?_, ?_, ?_, ?_⟩
  · rw [htx2c, ingestedDB_sessions, ingestedDB_sessions, hstem]
    simp [DB.emptyDB]
  · rw [htx2c, ingestedDB_index_log, ingestedDB_index_log]
    simp [DB.emptyDB]
  · rw [htx2c, ingestedDB_messages, ingestedDB_messages, hstem]
    simp only [DB.emptyDB, List.nil_append, List.filter_append, List.length_append]
    rw [msgsToRows_filter_self, msgsToRows_filter_self, msgsToRows_length,
      msgsToRows_length, hn1, hn2]
  · rw [htx3c, ingestedDB_messages, hdel, List.nil_append, msgsToRows_length, hn3]
  · rw [htx3c, ingestedDB_index_log, deletePhase_index_log, htx2c,
      ingestedDB_index_log, ingestedDB_index_log, h3p]
    simp [DB.emptyDB, ingestedDB_next_log_id]
  · intro emb hemb m hm
    rw [htx3c, ingestedDB_embeddings] at hemb
    rcases List.mem_append.mp hemb with hold | hnew
    · exfalso
      rw [deletePhase_embeddings, List.mem_filter] at hold
      obtain ⟨holdmem, holdpred⟩ := hold
      rw [decide_eq_true_eq] at holdpred
      apply holdpred
      obtain ⟨mm, hmm, hxid⟩ := hembs2 emb holdmem
      rw [hxid]
      apply List.mem_map_of_mem
      rw [List.mem_filter]
      refine ⟨hmm, ?_⟩
      rw [h3p]
      simp [(hall2 mm hmm).1]
    · have hb := ingestEmbRows_bounds ctx f3 _ emb hnew
      rw [deletePhase_next_msg_id] at hb
      have hm2 := (hall2 m hm).2
      intro hEq
      omega

def c10f1 : SrcFile :=
  ⟨"/a/x.jsonl", 10, "t0",
    [⟨some "message", some ⟨some "user", some (.str "alpha from file one")⟩,
      none, none, none⟩]⟩

def c10f2 : SrcFile :=
  ⟨"/b/x.jsonl", 11, "t0",
    [⟨some "message", some ⟨some "assistant", some (.str "beta from file two")⟩,
      none, none, none⟩]⟩

def c10f3 : SrcFile :=
  ⟨"/a/x.jsonl", 25, "t1",
    [⟨some "message", some ⟨some "user", some (.str "gamma replacement")⟩,
      none, none, none⟩]⟩

def c10tx1 : TxDB := (index_session_file plainIngest c10f1 TxDB.emptyTx).1

def c10tx2 : TxDB := (index_session_file plainIngest c10f2 c10tx1).1

def c10tx3 : TxDB := (index_session_file plainIngest c10f3 c10tx2).1

/-- C10 witness: two concrete files `/a/x.jsonl` and `/b/x.jsonl` collide
on the stem `x`; after both ingestions one session row remains, owned by
the second path, holding both turns; re-ingesting the first file empties
the shared session's old turns. -/
theorem c10_stem_collision_shares_session_witness :
    c10tx2.current.sessions.map (fun s => (s.id, s.source_file)) =
      [(stem c10f1.path, c10f2.path)] ∧
    (c10tx2.current.messages.filter
      (fun m => decide (m.session_id = stem c10f1.path))).length = 1 + 1 ∧
    c10tx3.current.messages.length = 1 := by
  have h := c10_stem_collision_shares_session plainIngest c10f1 c10f2 c10f3
    (by decide) (by decide) (by decide) (by decide) c10tx1 c10tx2 c10tx3
    1 0 1 0 1 0 (by decide) (by decide) (by decide)
  exact ⟨h.1, h.2.2.1, h.2.2.2.1⟩

/-! ## C8 -/

/-- The claim's noise condition on one decoded record: a recognized shape
whose role is in the tool-result set, or whose extracted content is
missing, empty or whitespace-only, or (for the Claude-Code shape) becomes
empty after stripping the system/command tag markers. -/
def noiseRecord (e : Entry) : Prop :=
  ∃ role raw isCC, shapeOf e = some (role, raw, isCC) ∧
    ((∃ r, role = some r ∧ r ∈ TOOL_RESULT_ROLES) ∨
     extractText raw = none ∨
     (∃ c, extractText raw = some c ∧ strTrim c = "") ∨
     (∃ c, extractText raw = some c ∧ isCC = true ∧
       strTrim (stripTags (strTrim c)) = ""))

/-- C8: a record whose role is in the tool-result role set, or whose
extracted content is empty or whitespace-only (including content emptied
by Claude-Code system/command tag stripping), produces no turn, and its
presence anywhere in a session file leaves the extracted message list —
and hence everything persisted — unchanged. -/
theorem c8_noise_records_produce_no_turn (e : Entry) (h : noiseRecord e) :
    turnOf e = none ∧
    ∀ pre post : List Entry,
      extract_messages (pre ++ e :: post) = extract_messages (pre ++ post) := by
  have ht : turnOf e = none := by
    obtain ⟨role, raw, isCC, hs, hcond⟩ := h
    have hbody : turnOf e = turnOfParts e.parsedTimestamp role raw isCC := by
      unfold turnOf
      simp only [hs]
    rw [hbody]
    unfold turnOfParts
    rcases hcond with ⟨r, hr, hmem⟩ | hnone | ⟨c, hc, htrim⟩ | ⟨c, hc, hcc, hstrip⟩
    · subst hr
      simp [roleIsToolResult, hmem]
    · by_cases hrole : roleIsToolResult role = true
      · rw [if_pos hrole]
      · rw [if_neg hrole, hnone]
    · by_cases hrole : roleIsToolResult role = true
      · rw [if_pos hrole]
      · rw [if_neg hrole, hc]
        simp [htrim]
    · by_cases hrole : roleIsToolResult role = true
      · rw [if_pos hrole]
      · rw [if_neg hrole, hc]
        by_cases htr : strTrim c = ""
        · simp [htr]
        · subst hcc
          simp [htr, hstrip]
  refine ⟨ht, fun pre post => ?_⟩
  unfold extract_messages
  have hm : (pre ++ e :: post).filterMap turnOf = (pre ++ post).filterMap turnOf := by
    simp [List.filterMap_append, List.filterMap_cons, ht]
  rw [hm]

def c8entry : Entry :=
  ⟨some "message", some ⟨some "tool_result", some (.str "stack traceback text")⟩,
    none, none, none⟩

/-- C8 witness: a concrete tool-result record is noise and yields no
turn. -/
theorem c8_noise_records_produce_no_turn_witness :
    noiseRecord c8entry ∧ turnOf c8entry = none := by
  have h : noiseRecord c8entry :=
    ⟨some "tool_result", .str "stack traceback text", false, by decide,
      Or.inl ⟨"tool_result", rfl, by decide⟩⟩
  exact ⟨h, (c8_noise_records_produce_no_turn c8entry h).1⟩

end ClawRecall


